import Mathlib

/-!
Verification of the HyperSquid copy-trading reconciliation engine
(`hypersquid/copy_trading.py`), shallowly embedded in Lean 4.

Numeric model: Python floats are modelled as exact rationals (`Rat`).
`Decimal.quantize(step, ROUND_DOWN)` is modelled as truncation toward zero
at the given number of decimals.  Wire dictionaries are modelled as typed
records; `_to_bool` applied to an already-boolean wire value is the
identity, so the `isMarket` field is carried as `Bool` directly.  Python
dicts built by repeated assignment keep first-insertion key order and the
last value written; the lookup and key-iteration functions below reproduce
that behaviour.
-/

/-- Instrument metadata entry from the exchange `meta.universe` list
(`szDecimals`, `pxDecimals`). -/
structure Asset where
  szDecimals : Nat
  pxDecimals : Nat
deriving DecidableEq, Repr

/-- A frontend open order (trigger or resting), as consumed by
`build_sync_plan`.  Fields that a given order kind does not use are
carried with their wire defaults. -/
structure FOrder where
  coin : String
  oid : Nat
  isTrigger : Bool
  tpsl : String
  isMarket : Bool
  triggerPx : Rat
  side : String
  limitPx : Rat
  sz : Rat
deriving DecidableEq, Repr

/-- The part of a user-state snapshot that `build_sync_plan` reads:
`withdrawable`, `marginSummary.accountValue`, and the `assetPositions`
list as (coin, signed size) pairs. -/
structure AccountState where
  withdrawable : Rat
  accountValue : Rat
  positions : List (String × Rat)
deriving DecidableEq, Repr

/-- All inputs of one `build_sync_plan` invocation (the data the Python
method fetches from the exchange at the start of the cycle). -/
structure SyncInputs where
  source : AccountState
  target : AccountState
  srcOrders : List FOrder
  tgtOrders : List FOrder
  meta : List (String × Asset)
  mids : List (String × Rat)
  allowEquiv : Bool
deriving DecidableEq, Repr

/-- An entry of the plan's `closes` list. -/
structure CloseAction where
  coin : String
  close_type : String
deriving DecidableEq, Repr

/-- An entry of the plan's `position_adjustments` list. -/
structure MarketAction where
  coin : String
  side : String
  amount : Rat
deriving DecidableEq, Repr

/-- An entry of the plan's `triggers_to_create` list. -/
structure CreateTrigger where
  coin : String
  is_buy : Bool
  order_type : String
  amount : Rat
  price : Option Rat
  stop_price : Rat
  tpsl : String
deriving DecidableEq, Repr

/-- An entry of the plan's cancellation lists (coin, oid). -/
structure CancelAction where
  coin : String
  oid : Nat
deriving DecidableEq, Repr

/-- The `SyncPlan` value returned by `build_sync_plan` (the wall-clock
`timestamp` field is omitted).  `scaleFactor` models the plan's
scale-ratio entry. -/
structure SyncPlan where
  position_adjustments : List MarketAction
  closes : List CloseAction
  triggers_to_create : List CreateTrigger
  triggers_to_cancel : List CancelAction
  open_orders_to_cancel : List CancelAction
  scaleFactor : Rat
deriving DecidableEq, Repr

/-- Truncation of a rational toward zero, as `Decimal` `ROUND_DOWN`. -/
def ratTrunc (x : Rat) : Int := if 0 ≤ x then ⌊x⌋ else ⌈x⌉

/-- Truncate toward zero at `d` decimal places
(models `Decimal.quantize(10 ^ -d, ROUND_DOWN)`). -/
def truncDec (d : Nat) (x : Rat) : Rat := ((ratTrunc (x * 10 ^ d) : Int) : Rat) / 10 ^ d

/-- `_get_asset_entry`: first universe entry whose name equals the coin. -/
def getAsset (meta : List (String × Asset)) (coin : String) : Option Asset :=
  (meta.find? (fun p => p.1 == coin)).map (fun p => p.2)

/-- `_quantize_size`: truncate to `szDecimals`; raw pass-through when the
instrument has no metadata entry. -/
def quantizeSize (meta : List (String × Asset)) (coin : String) (amount : Rat) : Rat :=
  match getAsset meta coin with
  | none => amount
  | some a => truncDec a.szDecimals amount

/-- `_quantize_price`: truncate to `pxDecimals`; raw pass-through when the
instrument has no metadata entry. -/
def quantizePrice (meta : List (String × Asset)) (coin : String) (price : Rat) : Rat :=
  match getAsset meta coin with
  | none => price
  | some a => truncDec a.pxDecimals price

/-- `_get_px_step`: one price tick (default 2 price decimals without
metadata). -/
def pxStep (meta : List (String × Asset)) (coin : String) : Rat :=
  match getAsset meta coin with
  | some a => 1 / 10 ^ a.pxDecimals
  | none => 1 / 10 ^ (2 : Nat)

/-- Dict lookup over an association list where later entries overwrite
earlier ones (Python dict semantics of `_positions_by_coin`). -/
def posLookup (l : List (String × Rat)) (coin : String) : Option Rat :=
  (l.reverse.find? (fun p => p.1 == coin)).map (fun p => p.2)

/-- `mids.get(coin, 0.0)` over the all-mids table. -/
def midLookup (mids : List (String × Rat)) (coin : String) : Rat :=
  ((mids.reverse.find? (fun p => p.1 == coin)).map (fun p => p.2)).getD 0

/-- Keys of an iteration in first-appearance order, each once
(Python dict key order). -/
def uniqKeysAux (seen : List String) : List String → List String
  | [] => []
  | c :: r => if c ∈ seen then uniqKeysAux seen r else c :: uniqKeysAux (c :: seen) r

/-- Keys in first-appearance order, deduplicated. -/
def uniqueKeys (l : List String) : List String := uniqKeysAux [] l

/-- Iteration order of `_positions_by_coin(...)`. -/
def posKeys (l : List (String × Rat)) : List String := uniqueKeys (l.map Prod.fst)

/-- Trigger orders of a frontend order list (`_get_tp_sl_orders_by_coin`
before grouping). -/
def triggerOrders (l : List FOrder) : List FOrder := l.filter (fun o => o.isTrigger)

/-- Non-trigger orders of a frontend order list
(`_get_non_trigger_frontend_by_coin` before grouping). -/
def nonTriggerOrders (l : List FOrder) : List FOrder := l.filter (fun o => !o.isTrigger)

/-- The group of a given coin inside a setdefault-grouped dict: the
sub-list of orders for that coin, in original order. -/
def ordersFor (l : List FOrder) (coin : String) : List FOrder :=
  l.filter (fun o => o.coin == coin)

/-- Key iteration order of a setdefault-grouped order dict. -/
def coinsOf (l : List FOrder) : List String := uniqueKeys (l.map (fun o => o.coin))

/-- Normalisation of a wire `tpsl` value: anything other than the two
known kinds collapses to stop-loss. -/
def normTpsl (s : String) : String := if s = "tp" ∨ s = "sl" then s else "sl"

/-- Scale computation of `build_sync_plan` lines 132-144: candidate
ratios from account value and withdrawable, minimum, clamped to 1. -/
def computeScale (src tgt : AccountState) : Rat :=
  let cands : List Rat :=
    (if 0 < src.accountValue ∧ 0 < tgt.accountValue then
      [tgt.accountValue / src.accountValue] else [])
    ++ (if 0 < src.withdrawable ∧ 0 ≤ tgt.withdrawable then
      [tgt.withdrawable / src.withdrawable] else [])
  match cands with
  | [] => 0
  | c :: cs => min (cs.foldl min c) 1

/-- Step 1 of `build_sync_plan` (lines 159-226) for one source coin:
the close actions and market adjustments this coin contributes. -/
def step1Coin (meta : List (String × Asset)) (mids : List (String × Rat)) (scale : Rat)
    (srcPositions tgtPositions : List (String × Rat)) (coin : String) :
    List CloseAction × List MarketAction :=
  let sSize := (posLookup srcPositions coin).getD 0
  if sSize = 0 then
    (match posLookup tgtPositions coin with
     | some t => if t ≠ 0 then [⟨coin, "market"⟩] else []
     | none => ([] : List CloseAction), [])
  else
    let desired := sSize * scale
    let current := (posLookup tgtPositions coin).getD 0
    let diff := desired - current
    if |diff| < 1 / 10 ^ 10 then ([], [])
    else
      let side := if 0 < diff then (if 0 < sSize then "buy" else "sell")
        else (if 0 < sSize then "sell" else "buy")
      let trade0 := |diff|
      let trade := if current ≠ 0 ∧ ¬((0 < current) ↔ (0 < diff)) then
        min trade0 |current| else trade0
      let tq := quantizeSize meta coin trade
      if tq ≤ 0 then ([], [])
      else
        let px := midLookup mids coin
        let val := if 0 < px then tq * px else tq
        if val < 5 then ([], [])
        else ([], [⟨coin, side, tq⟩])

/-- The plan's `closes` list (step 1, all source coins in dict order). -/
def step1Closes (meta : List (String × Asset)) (mids : List (String × Rat)) (scale : Rat)
    (srcPositions tgtPositions : List (String × Rat)) : List CloseAction :=
  (posKeys srcPositions).flatMap
    (fun c => (step1Coin meta mids scale srcPositions tgtPositions c).1)

/-- The plan's `position_adjustments` list (step 1). -/
def step1Adjs (meta : List (String × Asset)) (mids : List (String × Rat)) (scale : Rat)
    (srcPositions tgtPositions : List (String × Rat)) : List MarketAction :=
  (posKeys srcPositions).flatMap
    (fun c => (step1Coin meta mids scale srcPositions tgtPositions c).2)

/-- Mutable state of the inner source-trigger loop of step 2:
`matched` models `matched_oids`, `keepIds` models the global
`equivalent_non_trigger_oids_keep` set, plus the two accumulating
action lists. -/
structure TrigAcc where
  matched : List Nat
  keepIds : List Nat
  cancels : List CancelAction
  creates : List CreateTrigger
deriving DecidableEq, Repr

/-- Predicate of the existing-trigger search (lines 277-289): unconsumed,
same kind, same execution mode, trigger price within one tick. -/
def trigMatchPred (meta : List (String × Asset)) (coin : String) (matched : List Nat)
    (dtpsl : String) (dMkt : Bool) (dPx step : Rat) (o : FOrder) : Bool :=
  decide (o.oid ∉ matched ∧ normTpsl o.tpsl = dtpsl ∧ o.isMarket = dMkt ∧
    |quantizePrice meta coin o.triggerPx - dPx| ≤ step)

/-- Predicate of the equivalent-resting-order search (lines 345-356). -/
def restEquivPred (meta : List (String × Asset)) (coin : String) (sideChar : String)
    (trigPx step szq : Rat) (o : FOrder) : Bool :=
  decide (o.side = sideChar ∧ |quantizePrice meta coin o.limitPx - trigPx| ≤ step ∧
    |quantizeSize meta coin o.sz - szq| / (szq + 1 / 10 ^ 9) ≤ 1 / 20)

/-- The creation block of the per-source-trigger loop (lines 323-393):
size and notional guards, the equivalent-resting-order rule with its
keep-set test, and the trigger-creation append.  Reached when the match
search failed or found a size drift beyond tolerance. -/
def createPhase (meta : List (String × Asset)) (mids : List (String × Rat))
    (allowEquiv : Bool) (coin : String) (restList : List FOrder)
    (tSzi tOrderSz trigPxQ step : Rat) (dtpsl : String) (dMkt : Bool)
    (st1 : TrigAcc) : TrigAcc :=
  if 0 < tOrderSz then
    let isBuyExit := tSzi < 0
    let szq := quantizeSize meta coin tOrderSz
    if szq ≤ 0 then st1
    else
      let px := midLookup mids coin
      if 0 < px ∧ szq * px < 5 then st1
      else
        let keep2 :=
          if allowEquiv && !dMkt then
            match restList.find?
                (restEquivPred meta coin (if isBuyExit then "B" else "A") trigPxQ step szq) with
            | some ont => st1.keepIds ++ [ont.oid]
            | none => st1.keepIds
          else st1.keepIds
        if (allowEquiv && !dMkt) && restList.any (fun o => o.oid ∈ keep2) then
          { st1 with keepIds := keep2 }
        else
          { st1 with keepIds := keep2,
                     creates := st1.creates ++ [⟨coin, isBuyExit,
                       (if dMkt then "stop_market" else "stop_limit"), szq,
                       (if dMkt then none else some trigPxQ), trigPxQ, dtpsl⟩] }
  else st1

/-- Body of the per-source-trigger loop of step 2 (lines 262-393):
match against an existing target trigger, else (or on size drift)
fall through to the creation block. -/
def processSrcTrigger (meta : List (String × Asset)) (mids : List (String × Rat))
    (allowEquiv : Bool) (coin : String) (existing restList : List FOrder)
    (tSzi sizeFactor : Rat) (st : TrigAcc) (so : FOrder) : TrigAcc :=
  let step := pxStep meta coin
  let trigPxQ := quantizePrice meta coin so.triggerPx
  let tOrderSz := max 0 (so.sz * sizeFactor)
  let dtpsl := normTpsl so.tpsl
  let dMkt := so.isMarket
  match existing.find? (trigMatchPred meta coin st.matched dtpsl dMkt trigPxQ step) with
  | some o =>
    let dSzQ := quantizeSize meta coin tOrderSz
    let eSzQ := quantizeSize meta coin o.sz
    if dSzQ ≤ 0 then { st with matched := st.matched ++ [o.oid] }
    else if |eSzQ - dSzQ| / (dSzQ + 1 / 10 ^ 9) ≤ 1 / 20 then
      { st with matched := st.matched ++ [o.oid] }
    else
      createPhase meta mids allowEquiv coin restList tSzi tOrderSz trigPxQ step dtpsl dMkt
        { st with matched := st.matched ++ [o.oid],
                  cancels := st.cancels ++ [⟨coin, o.oid⟩] }
  | none =>
    createPhase meta mids allowEquiv coin restList tSzi tOrderSz trigPxQ step dtpsl dMkt st

/-- Cross-coin state of step 2. -/
structure Step2Acc where
  keepIds : List Nat
  cancels : List CancelAction
  creates : List CreateTrigger
deriving DecidableEq, Repr

/-- Step 2 of `build_sync_plan` (lines 232-406) for one coin carrying
source triggers. -/
def step2Coin (meta : List (String × Asset)) (mids : List (String × Rat)) (allowEquiv : Bool)
    (srcPositions tgtPositions : List (String × Rat)) (tgtTrigs tgtRest : List FOrder)
    (acc : Step2Acc) (coin : String) (srcList : List FOrder) : Step2Acc :=
  let existing := ordersFor tgtTrigs coin
  let cancelAll : Step2Acc :=
    { acc with cancels := acc.cancels ++ existing.map (fun o => ⟨coin, o.oid⟩) }
  match posLookup tgtPositions coin with
  | none => cancelAll
  | some tSzi =>
    match posLookup srcPositions coin with
    | none => cancelAll
    | some sSzi =>
      if |sSzi| = 0 then cancelAll
      else
        let sizeFactor := |tSzi| / |sSzi|
        let final := srcList.foldl
          (processSrcTrigger meta mids allowEquiv coin existing (ordersFor tgtRest coin)
            tSzi sizeFactor)
          ⟨[], acc.keepIds, acc.cancels, acc.creates⟩
        { keepIds := final.keepIds,
          cancels := final.cancels ++
            (existing.filter (fun o => decide (o.oid ∉ final.matched))).map
              (fun o => ⟨coin, o.oid⟩),
          creates := final.creates }

/-- Step 2 over all coins of the source trigger grouping. -/
def step2 (i : SyncInputs) : Step2Acc :=
  let srcTrigs := triggerOrders i.srcOrders
  (coinsOf srcTrigs).foldl
    (fun acc c =>
      step2Coin i.meta i.mids i.allowEquiv i.source.positions i.target.positions
        (triggerOrders i.tgtOrders) (nonTriggerOrders i.tgtOrders) acc c
        (ordersFor srcTrigs c))
    ⟨[], [], []⟩

/-- The `(side, quantized price, quantized size)` triple of the open-order
comparison (lines 414-419). -/
def orderNorm (meta : List (String × Asset)) (coin : String) (o : FOrder) :
    String × Rat × Rat :=
  (o.side, quantizePrice meta coin o.limitPx, quantizeSize meta coin o.sz)

/-- Step 3 of `build_sync_plan` (lines 408-448) for one target coin:
cancel unmatched non-trigger orders, skipping protected ones. -/
def step3Coin (meta : List (String × Asset)) (srcRest : List FOrder) (keepIds : List Nat)
    (coin : String) (tgtList : List FOrder) : List CancelAction :=
  let step := pxStep meta coin
  let srcNorms := (ordersFor srcRest coin).map (orderNorm meta coin)
  tgtList.foldl
    (fun acc o =>
      if o.oid ∈ keepIds then acc
      else
        let n := orderNorm meta coin o
        if srcNorms.any (fun m => decide (m.1 = n.1 ∧ |n.2.1 - m.2.1| ≤ step ∧
            |n.2.2 - m.2.2| / (m.2.2 + 1 / 10 ^ 9) ≤ 1 / 20)) then acc
        else acc ++ [⟨coin, o.oid⟩])
    []

/-- Step 3 over all coins of the target non-trigger grouping. -/
def step3 (i : SyncInputs) (keepIds : List Nat) : List CancelAction :=
  let tgtNt := nonTriggerOrders i.tgtOrders
  (coinsOf tgtNt).foldl
    (fun acc c => acc ++ step3Coin i.meta (nonTriggerOrders i.srcOrders) keepIds c
      (ordersFor tgtNt c))
    []

/-- `CopyTrader.build_sync_plan`, as a pure function of the fetched
inputs. -/
def buildSyncPlan (i : SyncInputs) : SyncPlan :=
  let scale := computeScale i.source i.target
  let s2 := step2 i
  { position_adjustments := step1Adjs i.meta i.mids scale i.source.positions i.target.positions,
    closes := step1Closes i.meta i.mids scale i.source.positions i.target.positions,
    triggers_to_create := s2.creates,
    triggers_to_cancel := s2.cancels,
    open_orders_to_cancel := step3 i s2.keepIds,
    scaleFactor := scale }

/-- One exchange call issued by `execute_plan`. -/
inductive ExCall where
  | closePos (coin : String) (closeType : String)
  | marketOrder (coin : String) (side : String) (amount : Rat)
  | cancelOrd (coin : String) (oid : Nat)
  | placeStop (t : CreateTrigger)
deriving DecidableEq, Repr

/-- The order-placing calls issued first: closes then market
adjustments. -/
def planCallsA (p : SyncPlan) : List ExCall :=
  p.closes.map (fun c => ExCall.closePos c.coin c.close_type)
    ++ p.position_adjustments.map (fun a => ExCall.marketOrder a.coin a.side a.amount)

/-- The cancellation calls: trigger cancels then open-order cancels. -/
def planCallsB (p : SyncPlan) : List ExCall :=
  (p.triggers_to_cancel ++ p.open_orders_to_cancel).map
    (fun t => ExCall.cancelOrd t.coin t.oid)

/-- The trigger-creation calls, issued last. -/
def planCallsC (p : SyncPlan) : List ExCall :=
  p.triggers_to_create.map (fun t => ExCall.placeStop t)

/-- The `{orders_placed, orders_cancelled}` result of `execute_plan`
(raw exchange responses modelled as opaque strings). -/
structure ExecOutcome where
  orders_placed : List String
  orders_cancelled : List String
deriving DecidableEq, Repr

/-- Issue a list of exchange calls sequentially.  A call either returns a
raw response (which may itself describe an API-level error) or raises;
a raise propagates, so the calls actually attempted are returned
alongside the outcome. -/
def execList (ex : ExCall → Except String String) :
    List ExCall → List ExCall × Except String (List String)
  | [] => ([], Except.ok [])
  | c :: rest =>
    match ex c with
    | Except.error e => ([c], Except.error e)
    | Except.ok r =>
      let t := execList ex rest
      (c :: t.1,
        match t.2 with
        | Except.ok rs => Except.ok (r :: rs)
        | Except.error e => Except.error e)

/-- `CopyTrader.execute_plan`: closes, market adjustments, trigger
cancels, open-order cancels, trigger creations, in that order, with no
exception handling of its own.  Returns the calls attempted and either
the collected raw results or the first uncaught exception. -/
def executePlan (ex : ExCall → Except String String) (p : SyncPlan) :
    List ExCall × Except String ExecOutcome :=
  let a := execList ex (planCallsA p)
  match a.2 with
  | Except.error e => (a.1, Except.error e)
  | Except.ok ra =>
    let b := execList ex (planCallsB p)
    match b.2 with
    | Except.error e => (a.1 ++ b.1, Except.error e)
    | Except.ok rb =>
      let c := execList ex (planCallsC p)
      match c.2 with
      | Except.error e => (a.1 ++ b.1 ++ c.1, Except.error e)
      | Except.ok rc => (a.1 ++ b.1 ++ c.1, Except.ok ⟨ra ++ rc, rb⟩)

/-! Auxiliary lemmas about money arithmetic and the dict/grouping model. -/

lemma ratTrunc_intCast (k : Int) : ratTrunc (k : Rat) = k := by
  unfold ratTrunc
  split
  · exact Int.floor_intCast k
  · exact Int.ceil_intCast k

lemma pow_ten_pos (d : Nat) : (0 : Rat) < 10 ^ d := by positivity

lemma truncDec_nonneg {d : Nat} {x : Rat} (hx : 0 ≤ x) : 0 ≤ truncDec d x := by
  unfold truncDec ratTrunc
  have hy : (0 : Rat) ≤ x * 10 ^ d := by positivity
  rw [if_pos hy]
  have : (0 : Int) ≤ ⌊x * 10 ^ d⌋ := Int.floor_nonneg.2 hy
  have h10 := pow_ten_pos d
  positivity

lemma truncDec_le {d : Nat} {x : Rat} (hx : 0 ≤ x) : truncDec d x ≤ x := by
  unfold truncDec ratTrunc
  have hy : (0 : Rat) ≤ x * 10 ^ d := by positivity
  rw [if_pos hy]
  have h10 := pow_ten_pos d
  rw [div_le_iff₀ h10]
  exact Int.floor_le _

lemma truncDec_nonpos {d : Nat} {x : Rat} (hx : x ≤ 0) : truncDec d x ≤ 0 := by
  unfold truncDec ratTrunc
  have hy : x * 10 ^ d ≤ 0 := by
    have h10 := pow_ten_pos d
    exact mul_nonpos_of_nonpos_of_nonneg hx (le_of_lt h10)
  by_cases h0 : (0 : Rat) ≤ x * 10 ^ d
  · rw [if_pos h0]
    have hxy : x * 10 ^ d = 0 := le_antisymm hy h0
    rw [hxy]
    norm_num
  · rw [if_neg h0]
    have : ⌈x * 10 ^ d⌉ ≤ (0 : Int) := by
      rw [Int.ceil_le]
      exact_mod_cast hy
    have h10 := pow_ten_pos d
    have hc : ((⌈x * 10 ^ d⌉ : Int) : Rat) ≤ 0 := by exact_mod_cast this
    exact div_nonpos_of_nonpos_of_nonneg hc (le_of_lt h10)

lemma le_truncDec {d : Nat} {x : Rat} (hx : x ≤ 0) : x ≤ truncDec d x := by
  unfold truncDec ratTrunc
  have h10 := pow_ten_pos d
  by_cases h0 : (0 : Rat) ≤ x * 10 ^ d
  · have hxy : x * 10 ^ d = 0 := by
      have : x * 10 ^ d ≤ 0 := mul_nonpos_of_nonpos_of_nonneg hx (le_of_lt h10)
      linarith
    have hx0 : x = 0 := by
      rcases mul_eq_zero.1 hxy with h | h
      · exact h
      · exact absurd h (ne_of_gt h10)
    rw [if_pos h0, hxy, hx0]
    simp
  · rw [if_neg h0]
    rw [le_div_iff₀ h10]
    exact Int.le_ceil _

lemma truncDec_pos_imp {d : Nat} {x : Rat} (h : 0 < truncDec d x) : 0 < x := by
  by_contra hx
  push_neg at hx
  exact absurd h (not_lt.2 (truncDec_nonpos hx))

lemma truncDec_idem (d : Nat) (x : Rat) : truncDec d (truncDec d x) = truncDec d x := by
  have h10 : (10 : Rat) ^ d ≠ 0 := ne_of_gt (pow_ten_pos d)
  unfold truncDec
  rw [div_mul_cancel₀ _ h10, ratTrunc_intCast]

lemma truncDec_gap {d : Nat} {x : Rat} : |x| - |truncDec d x| < 1 / 10 ^ d := by
  have h10 := pow_ten_pos d
  rcases le_or_lt 0 x with hx | hx
  · have h1 : 0 ≤ truncDec d x := truncDec_nonneg hx
    rw [abs_of_nonneg hx, abs_of_nonneg h1]
    unfold truncDec ratTrunc
    have hy : (0 : Rat) ≤ x * 10 ^ d := by positivity
    rw [if_pos hy]
    rw [sub_lt_iff_lt_add, div_add_div_same, lt_div_iff₀ h10]
    have := Int.lt_floor_add_one (x * 10 ^ d)
    linarith
  · have hx' : x ≤ 0 := le_of_lt hx
    have h1 : truncDec d x ≤ 0 := truncDec_nonpos hx'
    rw [abs_of_nonpos hx', abs_of_nonpos h1]
    unfold truncDec ratTrunc
    have hy : ¬ (0 : Rat) ≤ x * 10 ^ d := by
      intro h
      have : x * 10 ^ d < 0 := mul_neg_of_neg_of_pos hx h10
      linarith
    rw [if_neg hy]
    have hceil : (⌈x * 10 ^ d⌉ : Rat) < x * 10 ^ d + 1 := Int.ceil_lt_add_one _
    have h2 : -x - -(((⌈x * 10 ^ d⌉ : Int) : Rat) / 10 ^ d)
        = ((⌈x * 10 ^ d⌉ : Rat) - x * 10 ^ d) / 10 ^ d := by
      field_simp
      ring
    rw [h2, div_lt_div_iff₀ h10 h10]
    nlinarith [h10, hceil]

lemma truncDec_abs_le {d : Nat} {x : Rat} : |truncDec d x| ≤ |x| := by
  rcases le_or_lt 0 x with hx | hx
  · rw [abs_of_nonneg hx, abs_of_nonneg (truncDec_nonneg hx)]
    exact truncDec_le hx
  · have hx' : x ≤ 0 := le_of_lt hx
    rw [abs_of_nonpos hx', abs_of_nonpos (truncDec_nonpos hx')]
    simp only [neg_le_neg_iff]
    exact le_truncDec hx'

lemma quantizeSize_nonneg {meta : List (String × Asset)} {coin : String} {x : Rat}
    (hx : 0 ≤ x) : 0 ≤ quantizeSize meta coin x := by
  unfold quantizeSize
  cases getAsset meta coin with
  | none => exact hx
  | some a => exact truncDec_nonneg hx

lemma quantizeSize_le {meta : List (String × Asset)} {coin : String} {x : Rat}
    (hx : 0 ≤ x) : quantizeSize meta coin x ≤ x := by
  unfold quantizeSize
  cases getAsset meta coin with
  | none => exact le_refl x
  | some a => exact truncDec_le hx

lemma quantizeSize_pos_imp {meta : List (String × Asset)} {coin : String} {x : Rat}
    (h : 0 < quantizeSize meta coin x) : 0 < x := by
  unfold quantizeSize at h
  cases hg : getAsset meta coin with
  | none => rw [hg] at h; exact h
  | some a => rw [hg] at h; exact truncDec_pos_imp h

lemma quantizeSize_idem (meta : List (String × Asset)) (coin : String) (x : Rat) :
    quantizeSize meta coin (quantizeSize meta coin x) = quantizeSize meta coin x := by
  unfold quantizeSize
  cases getAsset meta coin with
  | none => rfl
  | some a => exact truncDec_idem a.szDecimals x

lemma pxStep_pos (meta : List (String × Asset)) (coin : String) : 0 < pxStep meta coin := by
  unfold pxStep
  cases getAsset meta coin with
  | none => norm_num
  | some a => positivity

lemma mem_uniqKeysAux {c : String} : ∀ {seen l : List String},
    c ∈ uniqKeysAux seen l ↔ c ∈ l ∧ c ∉ seen := by
  intro seen l
  induction l generalizing seen with
  | nil => simp [uniqKeysAux]
  | cons a r ih =>
    by_cases ha : a ∈ seen
    · rw [uniqKeysAux, if_pos ha, ih]
      constructor
      · rintro ⟨h1, h2⟩
        exact ⟨List.mem_cons_of_mem a h1, h2⟩
      · rintro ⟨h1, h2⟩
        rcases List.mem_cons.1 h1 with h | h
        · subst h; exact absurd ha h2
        · exact ⟨h, h2⟩
    · rw [uniqKeysAux, if_neg ha]
      by_cases hc : c = a
      · subst hc
        simp [ha]
      · constructor
        · intro h
          rcases List.mem_cons.1 h with h | h
          · exact absurd h hc
          · rw [ih] at h
            refine ⟨List.mem_cons_of_mem a h.1, fun hs => h.2 (List.mem_cons_of_mem a hs)⟩
        · rintro ⟨h1, h2⟩
          rcases List.mem_cons.1 h1 with h | h
          · exact absurd h hc
          · refine List.mem_cons_of_mem a (ih.2 ⟨h, fun hs => ?_⟩)
            rcases List.mem_cons.1 hs with h' | h'
            · exact hc h'
            · exact h2 h'

lemma mem_uniqueKeys {c : String} {l : List String} : c ∈ uniqueKeys l ↔ c ∈ l := by
  unfold uniqueKeys
  rw [mem_uniqKeysAux]
  simp

lemma uniqKeysAux_nodup : ∀ (seen l : List String),
    (uniqKeysAux seen l).Nodup ∧ ∀ c ∈ uniqKeysAux seen l, c ∉ seen := by
  intro seen l
  induction l generalizing seen with
  | nil => simp [uniqKeysAux]
  | cons a r ih =>
    by_cases ha : a ∈ seen
    · rw [uniqKeysAux, if_pos ha]
      exact ih seen
    · rw [uniqKeysAux, if_neg ha]
      obtain ⟨hnd, hni⟩ := ih (a :: seen)
      refine ⟨List.nodup_cons.2 ⟨fun hmem => ?_, hnd⟩, ?_⟩
      · exact (hni a hmem) (List.mem_cons_self a seen)
      · intro c hc
        rcases List.mem_cons.1 hc with h | h
        · subst h; exact ha
        · intro hs
          exact hni c h (List.mem_cons_of_mem a hs)

lemma uniqueKeys_nodup (l : List String) : (uniqueKeys l).Nodup :=
  (uniqKeysAux_nodup [] l).1

lemma posLookup_isSome_of_mem {l : List (String × Rat)} {c : String}
    (h : c ∈ l.map Prod.fst) : ∃ v, posLookup l c = some v := by
  unfold posLookup
  have hex : ∃ p ∈ l.reverse, (fun p : String × Rat => p.1 == c) p = true := by
    rcases List.mem_map.1 h with ⟨p, hp, hfst⟩
    exact ⟨p, List.mem_reverse.2 hp, by simp [hfst]⟩
  have hs : (List.find? (fun p : String × Rat => p.1 == c) l.reverse).isSome :=
    List.find?_isSome.2 hex
  rcases Option.isSome_iff_exists.1 hs with ⟨p, hp⟩
  exact ⟨p.2, by rw [hp]; rfl⟩

lemma posKeys_lookup {l : List (String × Rat)} {c : String} (h : c ∈ posKeys l) :
    ∃ v, posLookup l c = some v := by
  unfold posKeys at h
  exact posLookup_isSome_of_mem (mem_uniqueKeys.1 h)

lemma find?_append_none {α : Type} {p : α → Bool} {l1 l2 : List α}
    (h : l1.find? p = none) : (l1 ++ l2).find? p = l2.find? p := by
  induction l1 with
  | nil => simp
  | cons a r ih =>
    cases hp : p a with
    | true =>
      exfalso
      rw [List.find?_cons_of_pos _ hp] at h
      exact Option.noConfusion h
    | false =>
      rw [List.find?_cons_of_neg _ (by simp [hp])] at h
      rw [List.cons_append, List.find?_cons_of_neg _ (by simp [hp])]
      exact ih h

/-! Projections of `buildSyncPlan` in terms of its steps. -/

lemma buildSyncPlan_scale (i : SyncInputs) :
    (buildSyncPlan i).scaleFactor = computeScale i.source i.target := rfl

lemma buildSyncPlan_closes (i : SyncInputs) :
    (buildSyncPlan i).closes = step1Closes i.meta i.mids (computeScale i.source i.target)
      i.source.positions i.target.positions := rfl

lemma buildSyncPlan_adjs (i : SyncInputs) :
    (buildSyncPlan i).position_adjustments = step1Adjs i.meta i.mids
      (computeScale i.source i.target) i.source.positions i.target.positions := rfl

lemma buildSyncPlan_creates (i : SyncInputs) :
    (buildSyncPlan i).triggers_to_create = (step2 i).creates := rfl

lemma buildSyncPlan_trigCancels (i : SyncInputs) :
    (buildSyncPlan i).triggers_to_cancel = (step2 i).cancels := rfl

lemma buildSyncPlan_openCancels (i : SyncInputs) :
    (buildSyncPlan i).open_orders_to_cancel = step3 i (step2 i).keepIds := rfl

/-! Characterisation of step-1 membership. -/

lemma step1Coin_adj_spec {meta : List (String × Asset)} {mids : List (String × Rat)}
    {scale : Rat} {sp tp : List (String × Rat)} {c : String} {a : MarketAction}
    (ha : a ∈ (step1Coin meta mids scale sp tp c).2) :
    a.coin = c ∧
    (posLookup sp c).getD 0 ≠ 0 ∧
    ¬(|(posLookup sp c).getD 0 * scale - (posLookup tp c).getD 0| < 1 / 10 ^ 10) ∧
    a.side = (if 0 < (posLookup sp c).getD 0 * scale - (posLookup tp c).getD 0 then
        (if 0 < (posLookup sp c).getD 0 then "buy" else "sell")
      else (if 0 < (posLookup sp c).getD 0 then "sell" else "buy")) ∧
    a.amount = quantizeSize meta c
      (if (posLookup tp c).getD 0 ≠ 0 ∧
          ¬((0 < (posLookup tp c).getD 0) ↔
            (0 < (posLookup sp c).getD 0 * scale - (posLookup tp c).getD 0)) then
        min |(posLookup sp c).getD 0 * scale - (posLookup tp c).getD 0|
          |(posLookup tp c).getD 0|
      else |(posLookup sp c).getD 0 * scale - (posLookup tp c).getD 0|) ∧
    0 < a.amount := by
  simp only [step1Coin] at ha
  split at ha
  · simp at ha
  · next h0 =>
    split at ha
    · simp at ha
    · next h1 =>
      split at ha
      · next hcap =>
        split at ha
        · simp at ha
        · next h2 =>
          split at ha <;> split at ha
          · simp at ha
          · simp at ha
            subst ha
            refine ⟨rfl, h0, h1, ?_, ?_, lt_of_not_le h2⟩
            · simp only [sub_pos]
            · rw [if_pos hcap]
          · simp at ha
          · simp at ha
            subst ha
            refine ⟨rfl, h0, h1, ?_, ?_, lt_of_not_le h2⟩
            · simp only [sub_pos]
            · rw [if_pos hcap]
      · next hcap =>
        split at ha
        · simp at ha
        · next h2 =>
          split at ha <;> split at ha
          · simp at ha
          · simp at ha
            subst ha
            refine ⟨rfl, h0, h1, ?_, ?_, lt_of_not_le h2⟩
            · simp only [sub_pos]
            · rw [if_neg hcap]
          · simp at ha
          · simp at ha
            subst ha
            refine ⟨rfl, h0, h1, ?_, ?_, lt_of_not_le h2⟩
            · simp only [sub_pos]
            · rw [if_neg hcap]

lemma step1Coin_close_spec {meta : List (String × Asset)} {mids : List (String × Rat)}
    {scale : Rat} {sp tp : List (String × Rat)} {c : String} {cl : CloseAction}
    (ha : cl ∈ (step1Coin meta mids scale sp tp c).1) :
    cl = ⟨c, "market"⟩ ∧ (posLookup sp c).getD 0 = 0 ∧
    ∃ t, posLookup tp c = some t ∧ t ≠ 0 := by
  simp only [step1Coin] at ha
  split at ha
  · next h0 =>
    split at ha
    · next t ht =>
      split at ha
      · next htne =>
        simp only [List.mem_singleton] at ha
        exact ⟨ha, h0, t, ht, htne⟩
      · simp at ha
    · simp at ha
  · split at ha
    · simp at ha
    · split at ha <;> split at ha <;>
        first
          | (simp at ha; done)
          | (split at ha <;> split at ha <;> simp at ha)

lemma step1Adjs_spec {meta : List (String × Asset)} {mids : List (String × Rat)}
    {scale : Rat} {sp tp : List (String × Rat)} {a : MarketAction}
    (ha : a ∈ step1Adjs meta mids scale sp tp) :
    a.coin ∈ posKeys sp ∧ a ∈ (step1Coin meta mids scale sp tp a.coin).2 := by
  unfold step1Adjs at ha
  rcases List.mem_flatMap.1 ha with ⟨c, hc, hin⟩
  have hcoin : a.coin = c := (step1Coin_adj_spec hin).1
  rw [hcoin]
  exact ⟨hc, hin⟩

lemma step1Closes_spec {meta : List (String × Asset)} {mids : List (String × Rat)}
    {scale : Rat} {sp tp : List (String × Rat)} {cl : CloseAction}
    (ha : cl ∈ step1Closes meta mids scale sp tp) :
    cl.coin ∈ posKeys sp ∧ cl ∈ (step1Coin meta mids scale sp tp cl.coin).1 := by
  unfold step1Closes at ha
  rcases List.mem_flatMap.1 ha with ⟨c, hc, hin⟩
  have hcoin : cl.coin = c := by rw [(step1Coin_close_spec hin).1]
  rw [hcoin]
  exact ⟨hc, hin⟩

lemma computeScale_bounds (src tgt : AccountState) :
    0 ≤ computeScale src tgt ∧ computeScale src tgt ≤ 1 := by
  unfold computeScale
  split_ifs with h1 h2 h2
  · simp only [List.cons_append, List.singleton_append, List.foldl_cons, List.foldl_nil]
    constructor
    · refine le_min (le_min ?_ ?_) (by norm_num)
      · exact le_of_lt (div_pos h1.2 h1.1)
      · exact div_nonneg h2.2 (le_of_lt h2.1)
    · exact min_le_right _ 1
  · simp only [List.append_nil, List.foldl_nil]
    constructor
    · refine le_min ?_ (by norm_num)
      exact le_of_lt (div_pos h1.2 h1.1)
    · exact min_le_right _ 1
  · simp only [List.nil_append, List.foldl_nil]
    constructor
    · refine le_min ?_ (by norm_num)
      exact div_nonneg h2.2 (le_of_lt h2.1)
    · exact min_le_right _ 1
  · simp only [List.append_nil]
    norm_num

/-! Claim C1: side selection of market adjustments. -/

/-- Concrete cycle input: source short 10 X, target short 8 X, scale 1/2. -/
def c1Input : SyncInputs :=
  ⟨⟨0, 100, [("X", -10)]⟩, ⟨0, 50, [("X", -8)]⟩, [], [],
   [("X", ⟨2, 2⟩)], [("X", 10)], true⟩

/-- C1: with a short source position (szi -10, scale 1/2 giving desired -5)
and target szi -8, diff = +3 > 0, so moving toward the desired size requires
a buy; the code instead emits side "sell", which strictly increases
|desired - current| (3 to 6).  This exhibits the side-inversion bug for
short source positions. -/
theorem c1_side_inverted_for_short_source :
    (buildSyncPlan c1Input).position_adjustments =
      [{ coin := "X", side := "sell", amount := 3 }] ∧
    (buildSyncPlan c1Input).scaleFactor = 1 / 2 ∧
    posLookup c1Input.source.positions "X" = some (-10) ∧
    posLookup c1Input.target.positions "X" = some (-8) ∧
    |(-10 : Rat) * (1 / 2) - (-8 - 3)| > |(-10 : Rat) * (1 / 2) - (-8)| := by
  refine ⟨by with_unfolding_all decide, by with_unfolding_all decide, by decide, by decide, by norm_num⟩

/-! Claim C2: the scale ratio lies in the unit interval. -/

/-- C2: for every pair of snapshots the plan's scale ratio lies in [0, 1],
and equals 0 when neither scaling candidate is defined. -/
theorem c2_scale_unit_interval (i : SyncInputs) :
    0 ≤ (buildSyncPlan i).scaleFactor ∧ (buildSyncPlan i).scaleFactor ≤ 1 ∧
    (¬(0 < i.source.accountValue ∧ 0 < i.target.accountValue) →
      ¬(0 < i.source.withdrawable ∧ 0 ≤ i.target.withdrawable) →
      (buildSyncPlan i).scaleFactor = 0) := by
  rw [buildSyncPlan_scale]
  refine ⟨(computeScale_bounds _ _).1, (computeScale_bounds _ _).2, ?_⟩
  intro h1 h2
  unfold computeScale
  rw [if_neg h1, if_neg h2]
  rfl

/-- Negative-balance input for the witness of C2. -/
def c2Input : SyncInputs := ⟨⟨-3, 0, []⟩, ⟨5, -2, []⟩, [], [], [], [], true⟩

/-- Witness for C2 at a concrete input with no defined scaling candidate. -/
theorem c2_scale_witness :
    0 ≤ (buildSyncPlan c2Input).scaleFactor ∧ (buildSyncPlan c2Input).scaleFactor = 0 :=
  ⟨(c2_scale_unit_interval c2Input).1,
   (c2_scale_unit_interval c2Input).2.2 (by norm_num [c2Input]) (by norm_num [c2Input])⟩

/-! Claim C5: failure behaviour of `execute_plan`. -/

/-- A two-action plan: one close followed by one market adjustment. -/
def c5Plan : SyncPlan :=
  { position_adjustments := [⟨"X", "buy", 1⟩], closes := [⟨"X", "market"⟩],
    triggers_to_create := [], triggers_to_cancel := [], open_orders_to_cancel := [],
    scaleFactor := 1 }

/-- An exchange in which closing a position raises (as `Trading.close_position`
re-raises a RuntimeError) while every other call returns normally. -/
def c5Exec : ExCall → Except String String
  | ExCall.closePos _ _ => Except.error "RuntimeError: Failed to close position"
  | _ => Except.ok "ok"

/-- C5 counterexample: when the first exchange call raises, `execute_plan`
propagates the exception: the market adjustment of the same plan is never
issued and no result list captures the failure, contradicting the claim. -/
theorem c5_throw_aborts_plan :
    executePlan c5Exec c5Plan =
      ([ExCall.closePos "X" "market"],
        Except.error "RuntimeError: Failed to close position") ∧
    c5Plan.position_adjustments = [⟨"X", "buy", 1⟩] := by
  exact ⟨rfl, rfl⟩

lemma execList_ok (f : ExCall → String) (l : List ExCall) :
    execList (fun c => Except.ok (f c)) l = (l, Except.ok (l.map f)) := by
  induction l with
  | nil => rfl
  | cons a r ih => simp [execList, ih]

/-- C5 amended: as long as no exchange call raises, `execute_plan` issues a
call for every action of the plan, in the fixed order closes, market
adjustments, trigger cancels, open-order cancels, trigger creations, and
collects every raw per-action result (error payloads included, since results
are opaque to the executor); a call that raises instead aborts the remainder
of the plan, as the counterexample shows. -/
theorem c5_all_issued_when_no_throw (f : ExCall → String) (p : SyncPlan) :
    executePlan (fun c => Except.ok (f c)) p =
      (planCallsA p ++ planCallsB p ++ planCallsC p,
       Except.ok { orders_placed := (planCallsA p).map f ++ (planCallsC p).map f,
                   orders_cancelled := (planCallsB p).map f }) := by
  simp [executePlan, execList_ok]

/-! Claim C6: the equivalent-resting-order rule. -/

/-- Concrete cycle input: two non-market source TP triggers on X (prices 100
and 50), a single target resting sell at price 100, matching positions. -/
def c6Input : SyncInputs :=
  ⟨⟨0, 100, [("X", 4)]⟩, ⟨0, 100, [("X", 4)]⟩,
   [⟨"X", 11, true, "tp", false, 100, "", 0, 2⟩,
    ⟨"X", 12, true, "tp", false, 50, "", 0, 2⟩],
   [⟨"X", 31, false, "", false, 0, "A", 100, 2⟩],
   [("X", ⟨2, 2⟩)], [("X", 100)], true⟩

/-- C6: the trigger at price 50 has no equivalent resting order (the only
target resting order sits at quantized price 100, far beyond one tick), yet
no trigger at all is created: the keep-set test ranges over all of the
coin's resting orders, so the order marked equivalent for the price-100
trigger also suppresses creation of the price-50 trigger. -/
theorem c6_trigger_without_equivalent_not_created :
    (buildSyncPlan c6Input).triggers_to_create = [] ∧
    (buildSyncPlan c6Input).triggers_to_cancel = [] ∧
    (∀ o ∈ nonTriggerOrders c6Input.tgtOrders,
      ¬(|quantizePrice c6Input.meta "X" o.limitPx -
          quantizePrice c6Input.meta "X" (50 : Rat)| ≤ pxStep c6Input.meta "X")) := by
  refine ⟨by with_unfolding_all decide, by with_unfolding_all decide, by with_unfolding_all decide⟩

/-! Claim C9: quantization behaviour. -/

/-- C9: `quantizeSize` truncates toward zero to the size-decimal granularity
(so 0.0049 with two size-decimals yields 0), passes the raw value through
when instrument metadata is unavailable, and every market adjustment emitted
by `buildSyncPlan` has strictly positive amount equal to its own
quantization. -/
theorem c9_quantization :
    (∀ (meta : List (String × Asset)) (coin : String) (x : Rat),
      getAsset meta coin = none → quantizeSize meta coin x = x) ∧
    (∀ (meta : List (String × Asset)) (coin : String) (a : Asset) (x : Rat),
      getAsset meta coin = some a →
      |quantizeSize meta coin x| ≤ |x| ∧
      |x| - |quantizeSize meta coin x| < 1 / 10 ^ a.szDecimals ∧
      (0 ≤ x → 0 ≤ quantizeSize meta coin x) ∧
      ∃ k : Int, quantizeSize meta coin x = (k : Rat) / 10 ^ a.szDecimals) ∧
    quantizeSize [("X", ⟨2, 2⟩)] "X" (49 / 10000) = 0 ∧
    (∀ (i : SyncInputs), ∀ a ∈ (buildSyncPlan i).position_adjustments,
      0 < a.amount ∧ quantizeSize i.meta a.coin a.amount = a.amount) := by
  refine ⟨?_, ?_, by with_unfolding_all decide, ?_⟩
  · intro meta coin x h
    unfold quantizeSize
    rw [h]
  · intro meta coin a x h
    unfold quantizeSize
    rw [h]
    exact ⟨truncDec_abs_le, truncDec_gap, fun hx => truncDec_nonneg hx,
      ratTrunc (x * 10 ^ a.szDecimals), rfl⟩
  · intro i a ha
    rw [buildSyncPlan_adjs] at ha
    have spec := step1Coin_adj_spec (step1Adjs_spec ha).2
    refine ⟨spec.2.2.2.2.2, ?_⟩
    rw [spec.2.2.2.2.1]
    exact quantizeSize_idem _ _ _

/-- Cycle input for the C9 witness: source long 10 X, target flat. -/
def c9Input : SyncInputs :=
  ⟨⟨0, 100, [("X", 10)]⟩, ⟨0, 100, []⟩, [], [],
   [("X", ⟨2, 2⟩)], [("X", 10)], true⟩

/-- Witness for C9: the metadata-missing pass-through at 7/3, the
truncation bound at -0.153, and positivity plus fixed-point quantization of
the concrete plan's emitted adjustment. -/
theorem c9_quantization_witness :
    quantizeSize [] "Y" (7 / 3) = 7 / 3 ∧
    |quantizeSize [("X", ⟨2, 2⟩)] "X" (-153 / 1000)| ≤ |(-153 / 1000 : Rat)| ∧
    (0 < ({ coin := "X", side := "buy", amount := 10 } : MarketAction).amount ∧
     quantizeSize c9Input.meta ({ coin := "X", side := "buy", amount := 10 } : MarketAction).coin
       ({ coin := "X", side := "buy", amount := 10 } : MarketAction).amount =
       ({ coin := "X", side := "buy", amount := 10 } : MarketAction).amount) :=
  ⟨c9_quantization.1 [] "Y" (7 / 3) (by decide),
   (c9_quantization.2.1 [("X", ⟨2, 2⟩)] "X" ⟨2, 2⟩ (-153 / 1000) (by decide)).1,
   c9_quantization.2.2.2 c9Input { coin := "X", side := "buy", amount := 10 }
     (by with_unfolding_all decide)⟩

/-! Claim C10: closes and market adjustments are mutually exclusive per coin. -/

/-- C10: no instrument receives both a close and a market adjustment in one
plan; a close requires a source position entry of size exactly zero together
with a nonzero target size, and a market adjustment requires a nonzero
source entry. -/
theorem c10_close_xor_adjust (i : SyncInputs) (coin : String) :
    (¬((∃ cl ∈ (buildSyncPlan i).closes, cl.coin = coin) ∧
       ∃ a ∈ (buildSyncPlan i).position_adjustments, a.coin = coin)) ∧
    (∀ cl ∈ (buildSyncPlan i).closes, cl.coin = coin →
      posLookup i.source.positions coin = some 0 ∧
      ∃ t, posLookup i.target.positions coin = some t ∧ t ≠ 0) ∧
    (∀ a ∈ (buildSyncPlan i).position_adjustments, a.coin = coin →
      ∃ s, posLookup i.source.positions coin = some s ∧ s ≠ 0) := by
  refine ⟨?_, ?_, ?_⟩
  · rintro ⟨⟨cl, hcl, hclc⟩, ⟨a, ha, hac⟩⟩
    rw [buildSyncPlan_closes] at hcl
    rw [buildSyncPlan_adjs] at ha
    have h1 := (step1Coin_close_spec (step1Closes_spec hcl).2).2.1
    have h2 := (step1Coin_adj_spec (step1Adjs_spec ha).2).2.1
    rw [hclc] at h1
    rw [hac] at h2
    exact h2 h1
  · intro cl hcl hclc
    rw [buildSyncPlan_closes] at hcl
    obtain ⟨hk, hmem⟩ := step1Closes_spec hcl
    obtain ⟨_, h0, t, ht, htne⟩ := step1Coin_close_spec hmem
    rw [hclc] at hk h0 ht
    obtain ⟨v, hv⟩ := posKeys_lookup hk
    rw [hv, Option.getD_some] at h0
    rw [h0] at hv
    exact ⟨hv, t, ht, htne⟩
  · intro a ha hac
    rw [buildSyncPlan_adjs] at ha
    have h2 := (step1Coin_adj_spec (step1Adjs_spec ha).2).2.1
    rw [hac] at h2
    cases hl : posLookup i.source.positions coin with
    | none => rw [hl] at h2; simp at h2
    | some s =>
      rw [hl, Option.getD_some] at h2
      exact ⟨s, rfl, h2⟩

/-- Cycle input for the C10 witness: source flat on X, target long 3 X. -/
def c10Input : SyncInputs :=
  ⟨⟨0, 100, [("X", 0)]⟩, ⟨0, 100, [("X", 3)]⟩, [], [],
   [("X", ⟨2, 2⟩)], [("X", 10)], true⟩

/-- Witness for C10 applied to the concrete close emitted for X. -/
theorem c10_witness :
    posLookup c10Input.source.positions "X" = some 0 ∧
    ∃ t, posLookup c10Input.target.positions "X" = some t ∧ t ≠ 0 :=
  (c10_close_xor_adjust c10Input "X").2.1 ⟨"X", "market"⟩ (by with_unfolding_all decide) rfl

/-! State-delta lemmas for step 2: each phase only appends to the
accumulators, and every appended action carries the coin being
processed. -/

lemma createPhase_state (meta : List (String × Asset)) (mids : List (String × Rat))
    (allowEquiv : Bool) (coin : String) (restList : List FOrder)
    (tSzi tOrderSz trigPxQ step : Rat) (dtpsl : String) (dMkt : Bool) (st : TrigAcc) :
    ∃ dk dcr,
      createPhase meta mids allowEquiv coin restList tSzi tOrderSz trigPxQ step dtpsl dMkt st =
        { st with keepIds := st.keepIds ++ dk, creates := st.creates ++ dcr } ∧
      ∀ t ∈ dcr, t.coin = coin := by
  simp only [createPhase]
  split
  · split
    · exact ⟨[], [], by simp, by simp⟩
    · split
      · exact ⟨[], [], by simp, by simp⟩
      · by_cases hae : (allowEquiv && !dMkt) = true
        · cases hf : restList.find? (restEquivPred meta coin
              (if tSzi < 0 then "B" else "A") trigPxQ step (quantizeSize meta coin tOrderSz)) with
          | some ont =>
            simp only [hae, if_true, hf]
            split
            · exact ⟨[ont.oid], [], by simp, by simp⟩
            · exact ⟨[ont.oid], _, rfl, by simp⟩
          | none =>
            simp only [hae, if_true, hf]
            split
            · exact ⟨[], [], by simp, by simp⟩
            · exact ⟨[], [⟨coin, decide (tSzi < 0), (if dMkt then "stop_market" else "stop_limit"),
                  quantizeSize meta coin tOrderSz, (if dMkt then none else some trigPxQ),
                  trigPxQ, dtpsl⟩], by simp, by simp⟩
        · simp only [Bool.not_eq_true] at hae
          simp only [hae, Bool.false_eq_true, if_false]
          split
          · exact ⟨[], [], by simp, by simp⟩
          · exact ⟨[], [⟨coin, decide (tSzi < 0), (if dMkt then "stop_market" else "stop_limit"),
                  quantizeSize meta coin tOrderSz, (if dMkt then none else some trigPxQ),
                  trigPxQ, dtpsl⟩], by simp, by simp⟩
  · exact ⟨[], [], by simp, by simp⟩

lemma createPhase_not_pos {meta : List (String × Asset)} {mids : List (String × Rat)}
    {allowEquiv : Bool} {coin : String} {restList : List FOrder}
    {tSzi tOrderSz trigPxQ step : Rat} {dtpsl : String} {dMkt : Bool} {st : TrigAcc}
    (h : ¬ 0 < tOrderSz) :
    createPhase meta mids allowEquiv coin restList tSzi tOrderSz trigPxQ step dtpsl dMkt st = st := by
  unfold createPhase
  rw [if_neg h]

lemma processSrcTrigger_state (meta : List (String × Asset)) (mids : List (String × Rat))
    (allowEquiv : Bool) (coin : String) (existing restList : List FOrder)
    (tSzi sizeFactor : Rat) (st : TrigAcc) (so : FOrder) :
    ∃ dm dk dc dcr,
      processSrcTrigger meta mids allowEquiv coin existing restList tSzi sizeFactor st so =
        { matched := st.matched ++ dm, keepIds := st.keepIds ++ dk,
          cancels := st.cancels ++ dc, creates := st.creates ++ dcr } ∧
      (∀ x ∈ dc, x.coin = coin) ∧ (∀ t ∈ dcr, t.coin = coin) := by
  simp only [processSrcTrigger]
  split
  · next o _ =>
    split
    · exact ⟨[o.oid], [], [], [], by simp, by simp, by simp⟩
    · split
      · exact ⟨[o.oid], [], [], [], by simp, by simp, by simp⟩
      · obtain ⟨dk, dcr, heq, hco⟩ := createPhase_state meta mids allowEquiv coin restList
          tSzi (max 0 (so.sz * sizeFactor)) (quantizePrice meta coin so.triggerPx)
          (pxStep meta coin) (normTpsl so.tpsl) so.isMarket
          { st with matched := st.matched ++ [o.oid], cancels := st.cancels ++ [⟨coin, o.oid⟩] }
        refine ⟨[o.oid], dk, [⟨coin, o.oid⟩], dcr, ?_, by simp, hco⟩
        rw [heq]
  · obtain ⟨dk, dcr, heq, hco⟩ := createPhase_state meta mids allowEquiv coin restList
      tSzi (max 0 (so.sz * sizeFactor)) (quantizePrice meta coin so.triggerPx)
      (pxStep meta coin) (normTpsl so.tpsl) so.isMarket st
    refine ⟨[], dk, [], dcr, ?_, by simp, hco⟩
    rw [heq]
    simp

lemma foldl_processSrcTrigger_state (meta : List (String × Asset)) (mids : List (String × Rat))
    (allowEquiv : Bool) (coin : String) (existing restList : List FOrder)
    (tSzi sizeFactor : Rat) (l : List FOrder) (st : TrigAcc) :
    ∃ dm dk dc dcr,
      l.foldl (processSrcTrigger meta mids allowEquiv coin existing restList tSzi sizeFactor) st =
        { matched := st.matched ++ dm, keepIds := st.keepIds ++ dk,
          cancels := st.cancels ++ dc, creates := st.creates ++ dcr } ∧
      (∀ x ∈ dc, x.coin = coin) ∧ (∀ t ∈ dcr, t.coin = coin) := by
  induction l generalizing st with
  | nil => exact ⟨[], [], [], [], by simp, by simp, by simp⟩
  | cons so r ih =>
    rw [List.foldl_cons]
    obtain ⟨dm1, dk1, dc1, dcr1, heq1, hc1, hr1⟩ :=
      processSrcTrigger_state meta mids allowEquiv coin existing restList tSzi sizeFactor st so
    obtain ⟨dm2, dk2, dc2, dcr2, heq2, hc2, hr2⟩ :=
      ih { matched := st.matched ++ dm1, keepIds := st.keepIds ++ dk1,
           cancels := st.cancels ++ dc1, creates := st.creates ++ dcr1 }
    refine ⟨dm1 ++ dm2, dk1 ++ dk2, dc1 ++ dc2, dcr1 ++ dcr2, ?_, ?_, ?_⟩
    · rw [heq1, heq2]
      simp [List.append_assoc]
    · intro x hx
      rcases List.mem_append.1 hx with h | h
      · exact hc1 x h
      · exact hc2 x h
    · intro t ht
      rcases List.mem_append.1 ht with h | h
      · exact hr1 t h
      · exact hr2 t h

lemma createPhase_creates_not_pos {meta : List (String × Asset)} {mids : List (String × Rat)}
    {allowEquiv : Bool} {coin : String} {restList : List FOrder}
    {tSzi tOrderSz trigPxQ step : Rat} {dtpsl : String} {dMkt : Bool} {st : TrigAcc}
    (h : ¬ 0 < tOrderSz) :
    (createPhase meta mids allowEquiv coin restList tSzi tOrderSz trigPxQ step dtpsl dMkt st).creates
      = st.creates := by
  rw [createPhase_not_pos h]

lemma processSrcTrigger_creates_factor_zero (meta : List (String × Asset))
    (mids : List (String × Rat)) (allowEquiv : Bool) (coin : String)
    (existing restList : List FOrder) (tSzi : Rat) (st : TrigAcc) (so : FOrder) :
    (processSrcTrigger meta mids allowEquiv coin existing restList tSzi 0 st so).creates
      = st.creates := by
  simp only [processSrcTrigger]
  have hmax : max 0 (so.sz * 0) = (0 : Rat) := by simp
  split
  · split
    · rfl
    · split
      · rfl
      · rw [hmax, createPhase_creates_not_pos (by norm_num)]
  · rw [hmax, createPhase_creates_not_pos (by norm_num)]

lemma foldl_processSrcTrigger_creates_factor_zero (meta : List (String × Asset))
    (mids : List (String × Rat)) (allowEquiv : Bool) (coin : String)
    (existing restList : List FOrder) (tSzi : Rat) (l : List FOrder) (st : TrigAcc) :
    (l.foldl (processSrcTrigger meta mids allowEquiv coin existing restList tSzi 0) st).creates
      = st.creates := by
  induction l generalizing st with
  | nil => rfl
  | cons so r ih =>
    rw [List.foldl_cons, ih, processSrcTrigger_creates_factor_zero]

/-- The function folded over the coins of the source trigger grouping in
step 2. -/
def step2F (i : SyncInputs) (acc : Step2Acc) (c : String) : Step2Acc :=
  step2Coin i.meta i.mids i.allowEquiv i.source.positions i.target.positions
    (triggerOrders i.tgtOrders) (nonTriggerOrders i.tgtOrders) acc c
    (ordersFor (triggerOrders i.srcOrders) c)

lemma step2_eq_foldl (i : SyncInputs) :
    step2 i = (coinsOf (triggerOrders i.srcOrders)).foldl (step2F i) ⟨[], [], []⟩ := rfl

lemma step2F_state (i : SyncInputs) (acc : Step2Acc) (c : String) :
    ∃ dk dc dcr, step2F i acc c =
      { keepIds := acc.keepIds ++ dk, cancels := acc.cancels ++ dc,
        creates := acc.creates ++ dcr } ∧
      (∀ x ∈ dc, x.coin = c) ∧ (∀ t ∈ dcr, t.coin = c) := by
  simp only [step2F, step2Coin]
  split
  · refine ⟨[], (ordersFor (triggerOrders i.tgtOrders) c).map
      (fun o => (⟨c, o.oid⟩ : CancelAction)), [], by simp, ?_, by simp⟩
    intro x hx
    rcases List.mem_map.1 hx with ⟨o, _, rfl⟩
    rfl
  · next tSzi _ =>
    split
    · refine ⟨[], (ordersFor (triggerOrders i.tgtOrders) c).map
        (fun o => (⟨c, o.oid⟩ : CancelAction)), [], by simp, ?_, by simp⟩
      intro x hx
      rcases List.mem_map.1 hx with ⟨o, _, rfl⟩
      rfl
    · next sSzi _ =>
      split
      · refine ⟨[], (ordersFor (triggerOrders i.tgtOrders) c).map
          (fun o => (⟨c, o.oid⟩ : CancelAction)), [], by simp, ?_, by simp⟩
        intro x hx
        rcases List.mem_map.1 hx with ⟨o, _, rfl⟩
        rfl
      ·
        obtain ⟨dm, dk, dc, dcr, heq, hc, hr⟩ := foldl_processSrcTrigger_state i.meta i.mids
          i.allowEquiv c (ordersFor (triggerOrders i.tgtOrders) c)
          (ordersFor (nonTriggerOrders i.tgtOrders) c) tSzi (|tSzi| / |sSzi|)
          (ordersFor (triggerOrders i.srcOrders) c)
          ⟨[], acc.keepIds, acc.cancels, acc.creates⟩
        rw [heq]
        refine ⟨dk,
          dc ++ ((ordersFor (triggerOrders i.tgtOrders) c).filter
            (fun o => decide (o.oid ∉ [] ++ dm))).map (fun o => (⟨c, o.oid⟩ : CancelAction)),
          dcr, by simp [List.append_assoc], ?_, hr⟩
        intro x hx
        rcases List.mem_append.1 hx with hx | hx
        · exact hc x hx
        · rcases List.mem_map.1 hx with ⟨o, _, rfl⟩
          rfl

lemma step2F_no_tgt_pos (i : SyncInputs) (acc : Step2Acc) (c : String)
    (h : posLookup i.target.positions c = none) :
    step2F i acc c =
      { acc with cancels := acc.cancels ++
          (ordersFor (triggerOrders i.tgtOrders) c).map (fun o => ⟨c, o.oid⟩) } := by
  simp only [step2F, step2Coin, h]

lemma step2F_zero_tgt_creates (i : SyncInputs) (acc : Step2Acc) (c : String)
    (h : posLookup i.target.positions c = some 0) :
    (step2F i acc c).creates = acc.creates := by
  simp only [step2F, step2Coin, h]
  split
  · rfl
  · split
    · rfl
    · simp only [abs_zero, zero_div]
      exact foldl_processSrcTrigger_creates_factor_zero _ _ _ _ _ _ _ _ _

lemma foldl_step2F_state (i : SyncInputs) (l : List String) (acc : Step2Acc) :
    ∃ dk dc dcr, l.foldl (step2F i) acc =
      { keepIds := acc.keepIds ++ dk, cancels := acc.cancels ++ dc,
        creates := acc.creates ++ dcr } ∧
      (∀ x ∈ dc, x.coin ∈ l) ∧ (∀ t ∈ dcr, t.coin ∈ l) := by
  induction l generalizing acc with
  | nil => exact ⟨[], [], [], by simp, by simp, by simp⟩
  | cons c r ih =>
    rw [List.foldl_cons]
    obtain ⟨dk1, dc1, dcr1, heq1, hc1, hr1⟩ := step2F_state i acc c
    obtain ⟨dk2, dc2, dcr2, heq2, hc2, hr2⟩ :=
      ih { keepIds := acc.keepIds ++ dk1, cancels := acc.cancels ++ dc1,
           creates := acc.creates ++ dcr1 }
    refine ⟨dk1 ++ dk2, dc1 ++ dc2, dcr1 ++ dcr2,
      by rw [heq1, heq2]; simp [List.append_assoc], ?_, ?_⟩
    · intro x hx
      rcases List.mem_append.1 hx with hx | hx
      · rw [hc1 x hx]
        exact List.mem_cons_self c r
      · exact List.mem_cons_of_mem c (hc2 x hx)
    · intro t ht
      rcases List.mem_append.1 ht with ht | ht
      · rw [hr1 t ht]
        exact List.mem_cons_self c r
      · exact List.mem_cons_of_mem c (hr2 t ht)

/-! Claim C4: instruments with source triggers but no usable target
position. -/

/-- Concrete cycle input: target holds a zero-size position entry on X, the
source has a trigger on X, and the target's matching trigger on X. -/
def c4Input : SyncInputs :=
  ⟨⟨0, 100, [("X", 5)]⟩, ⟨0, 100, [("X", 0)]⟩,
   [⟨"X", 21, true, "tp", false, 100, "", 0, 2⟩],
   [⟨"X", 22, true, "tp", false, 100, "", 0, 2⟩],
   [("X", ⟨2, 2⟩)], [("X", 10)], true⟩

/-- C4 counterexample: with a zero-size target position entry, the target's
conditional order on X is price-matched by a source trigger and kept, so
the cancellation list is empty, although the claim demands every target
conditional order for X to be queued for cancellation. -/
theorem c4_zero_entry_keeps_matched_trigger :
    posLookup c4Input.target.positions "X" = some 0 ∧
    (∃ o ∈ triggerOrders c4Input.srcOrders, o.coin = "X") ∧
    (∃ o ∈ triggerOrders c4Input.tgtOrders, o.coin = "X") ∧
    (buildSyncPlan c4Input).triggers_to_cancel = [] := by
  refine ⟨by with_unfolding_all decide, by decide, by decide, by with_unfolding_all decide⟩

/-- C4 amended: where the source has at least one conditional order and the
target has no position entry at all, every target conditional order for the
instrument is queued for cancellation and no trigger is created for it;
with a zero-size position entry, no trigger is created (but price-matched
existing target triggers may be kept rather than cancelled). -/
theorem c4_no_position_cancels_all (i : SyncInputs) (c : String)
    (hsrc : ∃ o ∈ i.srcOrders, o.isTrigger = true ∧ o.coin = c) :
    (posLookup i.target.positions c = none →
      (∀ o ∈ i.tgtOrders, o.isTrigger = true → o.coin = c →
        ({ coin := c, oid := o.oid } : CancelAction) ∈ (buildSyncPlan i).triggers_to_cancel) ∧
      (∀ t ∈ (buildSyncPlan i).triggers_to_create, t.coin ≠ c)) ∧
    (posLookup i.target.positions c = some 0 →
      ∀ t ∈ (buildSyncPlan i).triggers_to_create, t.coin ≠ c) := by
  have hc : c ∈ coinsOf (triggerOrders i.srcOrders) := by
    rcases hsrc with ⟨o, ho, htrig, hcoin⟩
    unfold coinsOf
    rw [mem_uniqueKeys]
    exact List.mem_map.2 ⟨o, List.mem_filter.2 ⟨ho, by simp [htrig]⟩, hcoin⟩
  obtain ⟨l1, l2, hsplit⟩ := List.append_of_mem hc
  have hnd : (coinsOf (triggerOrders i.srcOrders)).Nodup := uniqueKeys_nodup _
  rw [hsplit] at hnd
  rw [List.nodup_append] at hnd
  have hcl1 : c ∉ l1 := fun hmem => hnd.2.2 hmem (List.mem_cons_self c l2)
  have hcl2 : c ∉ l2 := (List.nodup_cons.1 hnd.2.1).1
  have hfold : step2 i = l2.foldl (step2F i)
      (step2F i (l1.foldl (step2F i) ⟨[], [], []⟩) c) := by
    rw [step2_eq_foldl, hsplit, List.foldl_append, List.foldl_cons]
  obtain ⟨dk1, dc1, dcr1, heq1, hc1, hr1⟩ := foldl_step2F_state i l1 ⟨[], [], []⟩
  obtain ⟨dk2, dc2, dcr2, heq2, hc2, hr2⟩ :=
    foldl_step2F_state i l2 (step2F i (l1.foldl (step2F i) ⟨[], [], []⟩) c)
  constructor
  · intro hnone
    have hstep := step2F_no_tgt_pos i (l1.foldl (step2F i) ⟨[], [], []⟩) c hnone
    constructor
    · intro o ho htrig hcoin
      have hmem : ({ coin := c, oid := o.oid } : CancelAction) ∈
          (step2F i (l1.foldl (step2F i) ⟨[], [], []⟩) c).cancels := by
        rw [hstep]
        refine List.mem_append.2 (Or.inr ?_)
        refine List.mem_map.2 ⟨o, ?_, rfl⟩
        exact List.mem_filter.2 ⟨List.mem_filter.2 ⟨ho, by simp [htrig]⟩, by simp [hcoin]⟩
      rw [buildSyncPlan_trigCancels, hfold, heq2]
      exact List.mem_append.2 (Or.inl hmem)
    · intro t ht
      rw [buildSyncPlan_creates, hfold, heq2] at ht
      rcases List.mem_append.1 ht with ht | ht
      · rw [hstep] at ht
        simp only at ht
        rw [heq1] at ht
        simp only [List.nil_append] at ht
        intro hco
        exact hcl1 (hco ▸ hr1 t ht)
      · intro hco
        exact hcl2 (hco ▸ hr2 t ht)
  · intro hzero t ht
    have hstep := step2F_zero_tgt_creates i (l1.foldl (step2F i) ⟨[], [], []⟩) c hzero
    rw [buildSyncPlan_creates, hfold, heq2] at ht
    rcases List.mem_append.1 ht with ht | ht
    · rw [hstep, heq1] at ht
      simp only [List.nil_append] at ht
      intro hco
      exact hcl1 (hco ▸ hr1 t ht)
    · intro hco
      exact hcl2 (hco ▸ hr2 t ht)

/-- Cycle input for the C4 witness: source trigger on X, no target position
entry for X at all. -/
def c4WInput : SyncInputs :=
  ⟨⟨0, 100, [("X", 5)]⟩, ⟨0, 100, []⟩,
   [⟨"X", 21, true, "tp", false, 100, "", 0, 2⟩],
   [⟨"X", 22, true, "tp", false, 100, "", 0, 2⟩],
   [("X", ⟨2, 2⟩)], [("X", 10)], true⟩

/-- Witness for the amended C4 at a concrete no-position input. -/
theorem c4_witness :
    ({ coin := "X", oid := 22 } : CancelAction) ∈ (buildSyncPlan c4WInput).triggers_to_cancel ∧
    (∀ t ∈ (buildSyncPlan c4WInput).triggers_to_create, t.coin ≠ "X") :=
  ⟨((c4_no_position_cancels_all c4WInput "X"
      ⟨⟨"X", 21, true, "tp", false, 100, "", 0, 2⟩, by decide, rfl, rfl⟩).1 rfl).1
      ⟨"X", 22, true, "tp", false, 100, "", 0, 2⟩ (by decide) rfl rfl,
   ((c4_no_position_cancels_all c4WInput "X"
      ⟨⟨"X", 21, true, "tp", false, 100, "", 0, 2⟩, by decide, rfl, rfl⟩).1 rfl).2⟩

/-! Claim C8: position-reduction cap. -/

/-- C8: when the target holds a nonzero position and the diff points
opposite to it, the emitted amount is the quantization of
min(|diff|, |current|), hence at most |current|, and executing the trade on
its emitted side cannot flip the sign of the target position. -/
theorem c8_reduction_capped (i : SyncInputs) (a : MarketAction)
    (ha : a ∈ (buildSyncPlan i).position_adjustments)
    (hcur : (posLookup i.target.positions a.coin).getD 0 ≠ 0)
    (hopp : ¬((0 < (posLookup i.target.positions a.coin).getD 0) ↔
      (0 < (posLookup i.source.positions a.coin).getD 0 * (buildSyncPlan i).scaleFactor -
        (posLookup i.target.positions a.coin).getD 0))) :
    a.amount ≤ |(posLookup i.target.positions a.coin).getD 0| ∧
    a.amount = quantizeSize i.meta a.coin
      (min |(posLookup i.source.positions a.coin).getD 0 * (buildSyncPlan i).scaleFactor -
            (posLookup i.target.positions a.coin).getD 0|
         |(posLookup i.target.positions a.coin).getD 0|) ∧
    0 ≤ (if a.side = "buy"
      then (posLookup i.target.positions a.coin).getD 0 + a.amount
      else (posLookup i.target.positions a.coin).getD 0 - a.amount) *
      (posLookup i.target.positions a.coin).getD 0 := by
  rw [buildSyncPlan_scale] at hopp ⊢
  rw [buildSyncPlan_adjs] at ha
  obtain ⟨hc, hs0, heps, hside, hamt, hpos⟩ := step1Coin_adj_spec (step1Adjs_spec ha).2
  rw [if_pos ⟨hcur, hopp⟩] at hamt
  have hminn : (0 : Rat) ≤
      min |(posLookup i.source.positions a.coin).getD 0 * computeScale i.source i.target -
            (posLookup i.target.positions a.coin).getD 0|
        |(posLookup i.target.positions a.coin).getD 0| :=
    le_min (abs_nonneg _) (abs_nonneg _)
  have hle : a.amount ≤ |(posLookup i.target.positions a.coin).getD 0| := by
    rw [hamt]
    exact le_trans (quantizeSize_le hminn) (min_le_right _ _)
  refine ⟨hle, hamt, ?_⟩
  have hapos : 0 < a.amount := hpos
  rcases hcur.lt_or_lt with hneg | hposc
  · rw [abs_of_neg hneg] at hle
    split
    · nlinarith
    · nlinarith
  · rw [abs_of_pos hposc] at hle
    split
    · nlinarith
    · nlinarith

/-- Cycle input for the C8 witness: source long 5 X, target short 2 X,
scale 1, so the diff (+7) opposes the target's sign and the trade is capped
at 2. -/
def c8Input : SyncInputs :=
  ⟨⟨0, 100, [("X", 5)]⟩, ⟨0, 100, [("X", -2)]⟩, [], [],
   [("X", ⟨2, 2⟩)], [("X", 10)], true⟩

/-- Witness for C8 at the concrete capped buy of 2 X. -/
theorem c8_witness :
    ({ coin := "X", side := "buy", amount := 2 } : MarketAction).amount ≤
      |(posLookup c8Input.target.positions "X").getD 0| ∧
    ({ coin := "X", side := "buy", amount := 2 } : MarketAction).amount =
      quantizeSize c8Input.meta "X"
        (min |(posLookup c8Input.source.positions "X").getD 0 *
              (buildSyncPlan c8Input).scaleFactor -
              (posLookup c8Input.target.positions "X").getD 0|
           |(posLookup c8Input.target.positions "X").getD 0|) ∧
    0 ≤ (if ({ coin := "X", side := "buy", amount := 2 } : MarketAction).side = "buy"
      then (posLookup c8Input.target.positions "X").getD 0 +
        ({ coin := "X", side := "buy", amount := 2 } : MarketAction).amount
      else (posLookup c8Input.target.positions "X").getD 0 -
        ({ coin := "X", side := "buy", amount := 2 } : MarketAction).amount) *
      (posLookup c8Input.target.positions "X").getD 0 :=
  c8_reduction_capped c8Input { coin := "X", side := "buy", amount := 2 }
    (by with_unfolding_all decide) (by with_unfolding_all decide)
    (by with_unfolding_all decide)

/-! Claim C7: a price mismatch beyond one tick forces cancel and
recreate. -/

/-- C7: with one source trigger S and one existing target trigger T of the
same kind and execution mode on a coin where both accounts hold nonzero
positions, if T's quantized trigger price is more than one tick away from
S's desired quantized price, then T is queued for cancellation and a new
trigger at the desired price and scaled quantized size is queued for
creation (given the desired size quantizes positive and passes the
notional floor) -- regardless of whether the sizes agree. -/
theorem c7_price_mismatch_cancel_and_recreate
    (coin : String) (s t wd av2 : Rat) (S T : FOrder)
    (meta : List (String × Asset)) (mids : List (String × Rat)) (ae : Bool)
    (hs : s ≠ 0) (hScoin : S.coin = coin) (hStrig : S.isTrigger = true)
    (hTcoin : T.coin = coin) (hTtrig : T.isTrigger = true)
    (hkind : normTpsl T.tpsl = normTpsl S.tpsl)
    (hmode : T.isMarket = S.isMarket)
    (hpx : pxStep meta coin <
      |quantizePrice meta coin T.triggerPx - quantizePrice meta coin S.triggerPx|)
    (hsz : 0 < quantizeSize meta coin (max 0 (S.sz * (|t| / |s|))))
    (hnot : ¬(0 < midLookup mids coin ∧
      quantizeSize meta coin (max 0 (S.sz * (|t| / |s|))) * midLookup mids coin < 5)) :
    (buildSyncPlan ⟨⟨wd, av2, [(coin, s)]⟩, ⟨wd, av2, [(coin, t)]⟩,
        [S], [T], meta, mids, ae⟩).triggers_to_cancel = [⟨coin, T.oid⟩] ∧
    (buildSyncPlan ⟨⟨wd, av2, [(coin, s)]⟩, ⟨wd, av2, [(coin, t)]⟩,
        [S], [T], meta, mids, ae⟩).triggers_to_create =
      [⟨coin, decide (t < 0), (if S.isMarket then "stop_market" else "stop_limit"),
        quantizeSize meta coin (max 0 (S.sz * (|t| / |s|))),
        (if S.isMarket then none else some (quantizePrice meta coin S.triggerPx)),
        quantizePrice meta coin S.triggerPx, normTpsl S.tpsl⟩] := by
  have h1 : triggerOrders [S] = [S] := by simp [triggerOrders, hStrig]
  have h2 : triggerOrders [T] = [T] := by simp [triggerOrders, hTtrig]
  have h3 : nonTriggerOrders [T] = [] := by simp [nonTriggerOrders, hTtrig]
  have hcoins : coinsOf [S] = [coin] := by
    simp [coinsOf, uniqueKeys, uniqKeysAux, hScoin]
  have hordS : ordersFor [S] coin = [S] := by simp [ordersFor, hScoin]
  have hordT : ordersFor [T] coin = [T] := by simp [ordersFor, hTcoin]
  have hpt : posLookup [(coin, t)] coin = some t := by simp [posLookup]
  have hps : posLookup [(coin, s)] coin = some s := by simp [posLookup]
  have habs : ¬(|s| = 0) := by
    rw [abs_eq_zero]
    exact hs
  have htOrd : 0 < max 0 (S.sz * (|t| / |s|)) := quantizeSize_pos_imp hsz
  have hfound : List.find? (trigMatchPred meta coin [] (normTpsl S.tpsl) S.isMarket
      (quantizePrice meta coin S.triggerPx) (pxStep meta coin)) [T] = none := by
    rw [List.find?_eq_none]
    intro x hx
    simp only [List.mem_singleton] at hx
    subst hx
    simp only [trigMatchPred, decide_eq_true_eq]
    rintro ⟨-, -, -, hle⟩
    exact absurd hle (not_le.2 hpx)
  have hproc : processSrcTrigger meta mids ae coin [T] [] t (|t| / |s|) ⟨[], [], [], []⟩ S =
      ⟨[], [], [], [⟨coin, decide (t < 0), (if S.isMarket then "stop_market" else "stop_limit"),
        quantizeSize meta coin (max 0 (S.sz * (|t| / |s|))),
        (if S.isMarket then none else some (quantizePrice meta coin S.triggerPx)),
        quantizePrice meta coin S.triggerPx, normTpsl S.tpsl⟩]⟩ := by
    simp only [processSrcTrigger]
    rw [hfound]
    simp only [createPhase]
    rw [if_pos htOrd, if_neg (not_le.2 hsz), if_neg hnot]
    simp
  have hstep2 : step2 ⟨⟨wd, av2, [(coin, s)]⟩, ⟨wd, av2, [(coin, t)]⟩,
      [S], [T], meta, mids, ae⟩ = ⟨[], [⟨coin, T.oid⟩],
      [⟨coin, decide (t < 0), (if S.isMarket then "stop_market" else "stop_limit"),
        quantizeSize meta coin (max 0 (S.sz * (|t| / |s|))),
        (if S.isMarket then none else some (quantizePrice meta coin S.triggerPx)),
        quantizePrice meta coin S.triggerPx, normTpsl S.tpsl⟩]⟩ := by
    rw [step2_eq_foldl]
    simp only [h1, hcoins, List.foldl_cons, List.foldl_nil]
    simp only [step2F, step2Coin, h1, h2, h3, hordS, hordT, hpt, hps]
    rw [if_neg habs]
    simp only [ordersFor, List.filter_nil, List.foldl_cons, List.foldl_nil]
    simp only [hproc]
    simp [List.filter]
  rw [buildSyncPlan_trigCancels, buildSyncPlan_creates, hstep2]
  exact ⟨rfl, rfl⟩

/-- Source trigger for the C7 witness. -/
def c7S : FOrder := ⟨"X", 1, true, "tp", false, 100, "", 0, 2⟩

/-- Mismatched target trigger for the C7 witness (same kind and mode,
price 200 versus desired 100, identical size). -/
def c7T : FOrder := ⟨"X", 7, true, "tp", false, 200, "", 0, 2⟩

/-- Cycle input for the C7 witness. -/
def c7Input : SyncInputs :=
  ⟨⟨0, 100, [("X", 10)]⟩, ⟨0, 100, [("X", 10)]⟩, [c7S], [c7T],
   [("X", ⟨2, 2⟩)], [("X", 100)], true⟩

/-- Witness for C7: the price-200 trigger is cancelled and a fresh
price-100 trigger of the scaled size is created. -/
theorem c7_witness :
    (buildSyncPlan c7Input).triggers_to_cancel = [⟨"X", 7⟩] ∧
    (buildSyncPlan c7Input).triggers_to_create =
      [⟨"X", decide ((10 : Rat) < 0), (if c7S.isMarket then "stop_market" else "stop_limit"),
        quantizeSize c7Input.meta "X" (max 0 (c7S.sz * (|(10 : Rat)| / |(10 : Rat)|))),
        (if c7S.isMarket then none else some (quantizePrice c7Input.meta "X" c7S.triggerPx)),
        quantizePrice c7Input.meta "X" c7S.triggerPx, normTpsl c7S.tpsl⟩] :=
  c7_price_mismatch_cancel_and_recreate "X" 10 10 0 100 c7S c7T
    [("X", ⟨2, 2⟩)] [("X", 100)] true
    (by norm_num) rfl rfl rfl rfl rfl rfl
    (by with_unfolding_all decide) (by with_unfolding_all decide)
    (by with_unfolding_all decide)

/-! Claim C3: identical snapshots produce an empty plan. -/

/-- Identical account state shared by source and target in the C3
counterexample. -/
def c3State : AccountState := ⟨50, 100, [("X", 5)]⟩

/-- A conditional order on Y, held identically by both accounts, while
neither account has any position on Y. -/
def c3Orphan : FOrder := ⟨"Y", 41, true, "sl", true, 10, "", 0, 1⟩

/-- Identical-snapshot cycle input containing the orphaned trigger. -/
def c3Input : SyncInputs :=
  ⟨c3State, c3State, [c3Orphan], [c3Orphan], [("X", ⟨2, 2⟩)], [("X", 10)], true⟩

/-- C3 counterexample: source and target snapshots are literally identical
(scale ratio 1), yet the plan is not empty: the target's conditional order
on Y, an instrument with no position, is queued for cancellation. -/
theorem c3_identical_not_empty :
    c3Input.source = c3Input.target ∧ c3Input.srcOrders = c3Input.tgtOrders ∧
    (buildSyncPlan c3Input).scaleFactor = 1 ∧
    (buildSyncPlan c3Input).triggers_to_cancel = [⟨"Y", 41⟩] := by
  refine ⟨rfl, rfl, by with_unfolding_all decide, by with_unfolding_all decide⟩

lemma computeScale_self (st : AccountState)
    (h : 0 < st.accountValue ∨ 0 < st.withdrawable) : computeScale st st = 1 := by
  unfold computeScale
  by_cases hav : 0 < st.accountValue
  · rw [if_pos ⟨hav, hav⟩]
    by_cases hw : 0 < st.withdrawable
    · rw [if_pos ⟨hw, le_of_lt hw⟩]
      simp [div_self (ne_of_gt hav), div_self (ne_of_gt hw)]
    · rw [if_neg (fun hq => hw hq.1)]
      simp [div_self (ne_of_gt hav)]
  · rcases h with h | hw
    · exact absurd h hav
    · rw [if_neg (fun hq => hav hq.1), if_pos ⟨hw, le_of_lt hw⟩]
      simp [div_self (ne_of_gt hw)]

lemma step1Coin_self (meta : List (String × Asset)) (mids : List (String × Rat))
    (pos : List (String × Rat)) (c : String) (hc : c ∈ posKeys pos) :
    step1Coin meta mids 1 pos pos c = ([], []) := by
  obtain ⟨v, hv⟩ := posKeys_lookup hc
  simp only [step1Coin, hv, Option.getD_some]
  by_cases h0 : v = 0
  · subst h0
    simp
  · rw [if_neg h0, if_pos (by rw [mul_one, sub_self, abs_zero]; norm_num)]

lemma step1Adjs_self (meta : List (String × Asset)) (mids : List (String × Rat))
    (pos : List (String × Rat)) : step1Adjs meta mids 1 pos pos = [] := by
  unfold step1Adjs
  rw [List.eq_nil_iff_forall_not_mem]
  intro a ha
  rcases List.mem_flatMap.1 ha with ⟨c, hc, hin⟩
  rw [step1Coin_self meta mids pos c hc] at hin
  simp at hin

lemma step1Closes_self (meta : List (String × Asset)) (mids : List (String × Rat))
    (pos : List (String × Rat)) : step1Closes meta mids 1 pos pos = [] := by
  unfold step1Closes
  rw [List.eq_nil_iff_forall_not_mem]
  intro a ha
  rcases List.mem_flatMap.1 ha with ⟨c, hc, hin⟩
  rw [step1Coin_self meta mids pos c hc] at hin
  simp at hin

lemma processSrcTrigger_self (meta : List (String × Asset)) (mids : List (String × Rat))
    (ae : Bool) (c : String) (restList : List FOrder) (tSzi : Rat)
    (E done rest : List FOrder) (so : FOrder)
    (hE : E = done ++ so :: rest)
    (hnodup : (E.map (fun o => o.oid)).Nodup)
    (K : List Nat) (C : List CancelAction) (R : List CreateTrigger) :
    processSrcTrigger meta mids ae c E restList tSzi 1
      ⟨done.map (fun o => o.oid), K, C, R⟩ so =
      ⟨(done ++ [so]).map (fun o => o.oid), K, C, R⟩ := by
  have hkey : E.map (fun o => o.oid) =
      done.map (fun o => o.oid) ++ so.oid :: rest.map (fun o => o.oid) := by
    rw [hE]
    simp
  have hnod2 := hnodup
  rw [hkey, List.nodup_append] at hnod2
  have hso_not : so.oid ∉ done.map (fun o => o.oid) :=
    fun hmem => hnod2.2.2 hmem (List.mem_cons_self _ _)
  have hnone : List.find? (trigMatchPred meta c (done.map (fun o => o.oid))
      (normTpsl so.tpsl) so.isMarket (quantizePrice meta c so.triggerPx)
      (pxStep meta c)) done = none := by
    rw [List.find?_eq_none]
    intro o ho
    simp only [trigMatchPred, decide_eq_true_eq, not_and]
    intro hnotin
    exact absurd (List.mem_map_of_mem _ ho) hnotin
  have hpredso : trigMatchPred meta c (done.map (fun o => o.oid)) (normTpsl so.tpsl)
      so.isMarket (quantizePrice meta c so.triggerPx) (pxStep meta c) so = true := by
    unfold trigMatchPred
    rw [decide_eq_true_eq]
    refine ⟨hso_not, rfl, rfl, ?_⟩
    rw [sub_self, abs_zero]
    exact le_of_lt (pxStep_pos meta c)
  have hfind : List.find? (trigMatchPred meta c (done.map (fun o => o.oid))
      (normTpsl so.tpsl) so.isMarket (quantizePrice meta c so.triggerPx)
      (pxStep meta c)) E = some so := by
    rw [hE, find?_append_none hnone, List.find?_cons_of_pos _ hpredso]
  simp only [processSrcTrigger, hfind]
  by_cases hd : quantizeSize meta c (max 0 (so.sz * 1)) ≤ 0
  · rw [if_pos hd]
    simp
  · rw [if_neg hd]
    have hszpos : 0 < so.sz := by
      have h1 := quantizeSize_pos_imp (lt_of_not_le hd)
      rcases lt_max_iff.1 h1 with h | h
      · exact absurd h (lt_irrefl 0)
      · rwa [mul_one] at h
    have hmax : max 0 (so.sz * 1) = so.sz := by
      rw [mul_one]
      exact max_eq_right (le_of_lt hszpos)
    rw [hmax, sub_self, abs_zero, zero_div, if_pos (by norm_num)]
    simp

lemma foldl_processSrcTrigger_self (meta : List (String × Asset)) (mids : List (String × Rat))
    (ae : Bool) (c : String) (restList : List FOrder) (tSzi : Rat)
    (E : List FOrder) (hnodup : (E.map (fun o => o.oid)).Nodup)
    (K : List Nat) (C : List CancelAction) (R : List CreateTrigger) :
    ∀ (done rest : List FOrder), E = done ++ rest →
    rest.foldl (processSrcTrigger meta mids ae c E restList tSzi 1)
      ⟨done.map (fun o => o.oid), K, C, R⟩ =
      ⟨E.map (fun o => o.oid), K, C, R⟩ := by
  intro done rest
  induction rest generalizing done with
  | nil =>
    intro h
    rw [List.foldl_nil, h]
    simp
  | cons so r ih =>
    intro h
    rw [List.foldl_cons,
      processSrcTrigger_self meta mids ae c restList tSzi E done r so h hnodup K C R]
    exact ih (done ++ [so]) (h.trans (by simp))

lemma foldl_processSrcTrigger_self_full (meta : List (String × Asset))
    (mids : List (String × Rat)) (ae : Bool) (c : String) (restList : List FOrder)
    (tSzi : Rat) (E : List FOrder) (hnodup : (E.map (fun o => o.oid)).Nodup)
    (K : List Nat) (C : List CancelAction) (R : List CreateTrigger) :
    E.foldl (processSrcTrigger meta mids ae c E restList tSzi 1) ⟨[], K, C, R⟩ =
      ⟨E.map (fun o => o.oid), K, C, R⟩ := by
  have h := foldl_processSrcTrigger_self meta mids ae c restList tSzi E hnodup K C R [] E rfl
  simpa using h

lemma foldl_id {α β : Type} (f : α → β → α) (l : List β) (acc : α)
    (h : ∀ b ∈ l, ∀ a, f a b = a) : l.foldl f acc = acc := by
  induction l generalizing acc with
  | nil => rfl
  | cons x r ih =>
    rw [List.foldl_cons, h x (List.mem_cons_self x r)]
    exact ih acc (fun b hb a => h b (List.mem_cons_of_mem x hb) a)

lemma step2F_self (st : AccountState) (os : List FOrder) (meta : List (String × Asset))
    (mids : List (String × Rat)) (ae : Bool) (acc : Step2Acc) (c : String)
    (hc : c ∈ coinsOf (triggerOrders os))
    (hpos : ∀ o ∈ os, o.isTrigger = true →
      ∃ v, posLookup st.positions o.coin = some v ∧ v ≠ 0)
    (hnodup : ((triggerOrders os).map (fun o => o.oid)).Nodup) :
    step2F ⟨st, st, os, os, meta, mids, ae⟩ acc c = acc := by
  have hcm : c ∈ (triggerOrders os).map (fun o => o.coin) := by
    unfold coinsOf at hc
    exact mem_uniqueKeys.1 hc
  rcases List.mem_map.1 hcm with ⟨o, ho, hoc⟩
  have hotrig : o.isTrigger = true := by
    have := (List.mem_filter.1 ho).2
    simpa using this
  have hoos : o ∈ os := (List.mem_filter.1 ho).1
  obtain ⟨v, hv, hvne⟩ := hpos o hoos hotrig
  rw [hoc] at hv
  have habs : ¬(|v| = 0) := by
    rw [abs_eq_zero]
    exact hvne
  have hdiv : |v| / |v| = (1 : Rat) := div_self habs
  have hsub : ((ordersFor (triggerOrders os) c).map (fun o => o.oid)).Nodup :=
    List.Nodup.sublist (List.Sublist.map _ (List.filter_sublist _)) hnodup
  simp only [step2F, step2Coin, hv]
  rw [if_neg habs, hdiv,
    foldl_processSrcTrigger_self_full meta mids ae c (ordersFor (nonTriggerOrders os) c)
      v (ordersFor (triggerOrders os) c) hsub acc.keepIds acc.cancels acc.creates]
  have hfilter : (ordersFor (triggerOrders os) c).filter
      (fun o => decide (o.oid ∉ (ordersFor (triggerOrders os) c).map
        (fun o => o.oid))) = [] := by
    rw [List.filter_eq_nil_iff]
    intro a ha
    simp only [decide_eq_true_eq, not_not]
    exact List.mem_map_of_mem _ ha
  rw [hfilter]
  simp

lemma step2_self (st : AccountState) (os : List FOrder) (meta : List (String × Asset))
    (mids : List (String × Rat)) (ae : Bool)
    (hpos : ∀ o ∈ os, o.isTrigger = true →
      ∃ v, posLookup st.positions o.coin = some v ∧ v ≠ 0)
    (hnodup : ((triggerOrders os).map (fun o => o.oid)).Nodup) :
    step2 ⟨st, st, os, os, meta, mids, ae⟩ = ⟨[], [], []⟩ := by
  rw [step2_eq_foldl]
  exact foldl_id _ _ _ (fun c hc acc => step2F_self st os meta mids ae acc c hc hpos hnodup)

lemma step3Coin_self (meta : List (String × Asset)) (rest : List FOrder)
    (keep : List Nat) (c : String) :
    step3Coin meta rest keep c (ordersFor rest c) = [] := by
  unfold step3Coin
  refine foldl_id _ _ _ ?_
  intro o ho acc
  dsimp only
  by_cases hk : o.oid ∈ keep
  · rw [if_pos hk]
  · rw [if_neg hk, if_pos ?_]
    apply List.any_eq_true.2
    refine ⟨orderNorm meta c o, List.mem_map.2 ⟨o, ho, rfl⟩, ?_⟩
    rw [decide_eq_true_eq]
    refine ⟨rfl, ?_, ?_⟩
    · rw [sub_self, abs_zero]
      exact le_of_lt (pxStep_pos meta c)
    · rw [sub_self, abs_zero, zero_div]
      norm_num

lemma step3_self (st : AccountState) (os : List FOrder) (meta : List (String × Asset))
    (mids : List (String × Rat)) (ae : Bool) (keep : List Nat) :
    step3 ⟨st, st, os, os, meta, mids, ae⟩ keep = [] := by
  unfold step3
  refine foldl_id _ _ _ ?_
  intro c hc acc
  dsimp only
  rw [step3Coin_self]
  simp

/-- C3 amended: if source and target snapshots are identical, the scale
ratio computes to 1 (which requires a positive account value or
withdrawable), every instrument carrying a conditional order has a nonzero
position entry, and order ids are distinct, then the plan's five action
lists are all empty and the scale ratio is 1 -- idempotence at steady
state.  Identical snapshots alone are not enough: a conditional order on
an instrument without a position is cancelled even when both accounts hold
it identically, as the counterexample shows. -/
theorem c3_identical_empty_plan (st : AccountState) (os : List FOrder)
    (meta : List (String × Asset)) (mids : List (String × Rat)) (ae : Bool)
    (hscale : 0 < st.accountValue ∨ 0 < st.withdrawable)
    (hpos : ∀ o ∈ os, o.isTrigger = true →
      ∃ v, posLookup st.positions o.coin = some v ∧ v ≠ 0)
    (hnodup : ((triggerOrders os).map (fun o => o.oid)).Nodup) :
    buildSyncPlan ⟨st, st, os, os, meta, mids, ae⟩ =
      { position_adjustments := [], closes := [], triggers_to_create := [],
        triggers_to_cancel := [], open_orders_to_cancel := [], scaleFactor := 1 } := by
  have hs1 : computeScale st st = 1 := computeScale_self st hscale
  have h2 : step2 ⟨st, st, os, os, meta, mids, ae⟩ = ⟨[], [], []⟩ :=
    step2_self st os meta mids ae hpos hnodup
  have e1 : (buildSyncPlan ⟨st, st, os, os, meta, mids, ae⟩).position_adjustments = [] := by
    show step1Adjs meta mids (computeScale st st) st.positions st.positions = []
    rw [hs1]
    exact step1Adjs_self meta mids st.positions
  have e2 : (buildSyncPlan ⟨st, st, os, os, meta, mids, ae⟩).closes = [] := by
    show step1Closes meta mids (computeScale st st) st.positions st.positions = []
    rw [hs1]
    exact step1Closes_self meta mids st.positions
  have e3 : (buildSyncPlan ⟨st, st, os, os, meta, mids, ae⟩).triggers_to_create = [] := by
    show (step2 ⟨st, st, os, os, meta, mids, ae⟩).creates = []
    rw [h2]
  have e4 : (buildSyncPlan ⟨st, st, os, os, meta, mids, ae⟩).triggers_to_cancel = [] := by
    show (step2 ⟨st, st, os, os, meta, mids, ae⟩).cancels = []
    rw [h2]
  have e5 : (buildSyncPlan ⟨st, st, os, os, meta, mids, ae⟩).open_orders_to_cancel = [] := by
    show step3 ⟨st, st, os, os, meta, mids, ae⟩
      (step2 ⟨st, st, os, os, meta, mids, ae⟩).keepIds = []
    rw [h2]
    exact step3_self st os meta mids ae []
  have e6 : (buildSyncPlan ⟨st, st, os, os, meta, mids, ae⟩).scaleFactor = 1 := by
    show computeScale st st = 1
    exact hs1
  have heta : buildSyncPlan ⟨st, st, os, os, meta, mids, ae⟩ =
      { position_adjustments := (buildSyncPlan ⟨st, st, os, os, meta, mids, ae⟩).position_adjustments,
        closes := (buildSyncPlan ⟨st, st, os, os, meta, mids, ae⟩).closes,
        triggers_to_create := (buildSyncPlan ⟨st, st, os, os, meta, mids, ae⟩).triggers_to_create,
        triggers_to_cancel := (buildSyncPlan ⟨st, st, os, os, meta, mids, ae⟩).triggers_to_cancel,
        open_orders_to_cancel := (buildSyncPlan ⟨st, st, os, os, meta, mids, ae⟩).open_orders_to_cancel,
        scaleFactor := (buildSyncPlan ⟨st, st, os, os, meta, mids, ae⟩).scaleFactor } := rfl
  rw [heta, e1, e2, e3, e4, e5, e6]

/-- Identical account state for the C3 witness, with a position on X. -/
def c3WState : AccountState := ⟨50, 100, [("X", 5)]⟩

/-- Conditional order on X held identically by both accounts. -/
def c3WOrder : FOrder := ⟨"X", 61, true, "tp", false, 120, "", 0, 2⟩

/-- Witness for the amended C3: a fully identical snapshot pair whose
conditional orders all sit on positioned instruments yields the empty
plan with scale ratio 1. -/
theorem c3_witness :
    buildSyncPlan ⟨c3WState, c3WState, [c3WOrder], [c3WOrder],
        [("X", ⟨2, 2⟩)], [("X", 10)], true⟩ =
      { position_adjustments := [], closes := [], triggers_to_create := [],
        triggers_to_cancel := [], open_orders_to_cancel := [], scaleFactor := 1 } :=
  c3_identical_empty_plan c3WState [c3WOrder] [("X", ⟨2, 2⟩)] [("X", 10)] true
    (Or.inl (by norm_num [c3WState]))
    (fun o ho _ => by
      simp only [List.mem_singleton] at ho
      subst ho
      exact ⟨5, by with_unfolding_all decide, by norm_num⟩)
    (by decide)
